import Mathlib

/-
Verification of the core of rat_trap_parts (src/rat_trap_parts.cpp): a
single-player word game.  We give a shallow embedding of the anagram
validator (`word::is_one_less_than`), the stem extractor
(`rat_trap_parts::stems_from_str`, parameterized over the external
WordNet/hunspell oracles), and the per-turn state machine of
`rat_trap_parts::play`, and prove the specified properties about them.
-/

/-- Model of `std::sort` on the characters of a word: insert one character
into an already sorted list (ascending). -/
def insertSorted (c : Char) : List Char → List Char
  | [] => [c]
  | d :: rest => if c ≤ d then c :: d :: rest else d :: insertSorted c rest

/-- Ascending sort of a character list, modelling `std::sort(s.begin(), s.end())`. -/
def sortChars (l : List Char) : List Char := l.foldr insertSorted []

/-- `word` from rat_trap_parts.cpp: the literal string together with its
cached sorted-letters form (`word::word` sorts at construction). -/
structure word where
  literal : String
  sorted : List Char
deriving DecidableEq

/-- `word::word(std::string const&)`: cache the sorted letters. -/
def mkWord (w : String) : word := ⟨w, sortChars w.data⟩

/-- The two-cursor walk of `word::is_one_less_than` (lines 85-94).  The
first list is the still-unread suffix of the sorted combined string `o`
(cursor `j`), the second the unread suffix of the sorted source (cursor
`i`).  The C++ loop `while (i < sorted.size() && j < o.size())` exits with
`true` as soon as either cursor runs out; on a character match both
cursors advance; on a mismatch the code returns false when `j - i > 1`
(checked before `j++`) and otherwise advances `j` only. -/
def walk : List Char → List Char → Nat → Nat → Bool
  | [], _, _, _ => true
  | _ :: _, [], _, _ => true
  | b :: o, a :: s, i, j =>
    if a = b then walk o s (i + 1) (j + 1)
    else if j - i > 1 then false
    else walk o (a :: s) i (j + 1)

/-- `word::is_one_less_than` (lines 74-96): join the candidate strings with
no separator, require the joined length to exceed the source length by
exactly one (the C++ compares `size_t`s, so any shorter joined string
wraps around and also fails), then sort and do the two-cursor walk.
(Nat subtraction gives 0 when the joined string is shorter, which is
likewise ≠ 1, so the unsigned wrap is modelled faithfully.) -/
def word.is_one_less_than (w : word) (other : List String) : Bool :=
  let o := String.join other
  if o.length - w.sorted.length ≠ 1 then false
  else walk (sortChars o.data) w.sorted 0 0

/-- `lowercase_and_validate` (lines 34-37) lowercases its argument in
place and reports whether every character is alphabetic.  We model the
two effects separately: the lowering (boost `to_lower`, i.e. `tolower`
applied to each character) ... -/
def strLower (s : String) : String := String.mk (s.data.map Char.toLower)

/-- ... and the `std::all_of(..., isalpha)` validity check, applied to the
already-lowered string. -/
def allAlpha (s : String) : Bool := s.data.all Char.isAlpha

/-- The external oracles consulted by `stems_from_str`: hunspell's
`spell`, WordNet's `morphword` (nullptr modelled as `none`) and `in_wn`,
and hunspell's `stem` (the returned array as a list). -/
structure LexOracle where
  spell_ok : String → Bool
  morphword : String → Nat → Option String
  in_wn : String → Nat → Bool
  hun_stem : String → List String

/-- The one exception `stems_from_str` can throw (line 104). -/
inductive StemError where
  | lengthExceeded
deriving DecidableEq

instance : DecidableEq (Except StemError (Finset String)) := fun a b =>
  match a, b with
  | .error e, .error e' => decidable_of_iff (e = e') (by simp)
  | .error _, .ok _ => isFalse (fun h => Except.noConfusion h)
  | .ok _, .error _ => isFalse (fun h => Except.noConfusion h)
  | .ok s, .ok s' => decidable_of_iff (s = s') (by simp)

/-- The hunspell-stem loop of lines 132-135 increments its counter twice
per iteration (`i++` in the loop header and again in the body), so it
reads only the entries at even indices 0, 2, 4, ... -/
def everyOther : List String → List String
  | [] => []
  | [a] => [a]
  | a :: _ :: rest => a :: everyOther rest

/-- One iteration of the category loop of lines 116-126: state is the
stem set accumulated so far and the `should_hunspell` flag. -/
def catStep (L : LexOracle) (literal : String) (acc : Finset String × Bool)
    (i : Nat) : Finset String × Bool :=
  match L.morphword literal i with
  | none => if L.in_wn literal i then (acc.1, true) else acc
  | some buf => (insert buf acc.1, acc.2)

/-- The category loop runs `for (int i = NOUN; i <= ADV; i++)` with the
WordNet constants NOUN = 1, VERB = 2, ADJ = 3, ADV = 4. -/
def catLoop (L : LexOracle) (literal : String) : Finset String × Bool :=
  [1, 2, 3, 4].foldl (catStep L literal) (∅, false)

/-- `rat_trap_parts::stems_from_str` (lines 98-142).  The input is first
checked against the 128-byte buffer `literal_arr` (`str.size() >=
sizeof(literal_arr)` throws), then lowercased and validated; the spell
check runs on the *original* string `str`.  The category loop collects
WordNet base forms and flags the secondary hunspell stemmer, which is
then consulted once on the lowered word, with only every other returned
stem added (see `everyOther`). -/
def stems_from_str (L : LexOracle) (str : String) :
    Except StemError (Finset String) :=
  if 128 ≤ str.length then .error .lengthExceeded
  else
    let literal := strLower str
    if ¬ allAlpha literal ∨ ¬ L.spell_ok str then .ok ∅
    else
      let res := catLoop L literal
      if res.2 then
        .ok ((everyOther (L.hun_stem literal)).foldl (fun s x => insert x s) res.1)
      else
        .ok res.1

/-- The mutable members of `rat_trap_parts` that a turn touches: the
score (`unsigned long score`), the used-stem ledger
(`std::set<std::string const> used_stems`) and the two word pools
(`std::set<word const> current, prior`, keyed by literal). -/
structure GameState where
  score : Nat
  used_stems : Finset String
  current : Finset String
  prior : Finset String

instance : DecidableEq GameState := fun a b =>
  decidable_of_iff
    (a.score = b.score ∧ a.used_stems = b.used_stems ∧
      a.current = b.current ∧ a.prior = b.prior)
    (by cases a; cases b; simp)

/-- The rejection points of the turn handler in `play` (lines 308-370),
in program order.  `entryInvalid` covers both messages guarded by the
`entry_invalid` flag ("isn't a valid word" and "already used previously"). -/
inductive RejectReason where
  | notCurrent
  | noCandidates
  | badToken
  | notAnagram
  | entryInvalid
deriving DecidableEq

/-- A turn either rejects (with `continue`, mutating nothing) or commits
a new state (lines 371-375). -/
inductive TurnResult where
  | rejected (r : RejectReason)
  | committed (st : GameState)

instance : DecidableEq TurnResult := fun a b =>
  match a, b with
  | .rejected r, .rejected r' => decidable_of_iff (r = r') (by simp)
  | .rejected _, .committed _ => isFalse (fun h => TurnResult.noConfusion h)
  | .committed _, .rejected _ => isFalse (fun h => TurnResult.noConfusion h)
  | .committed s, .committed s' => decidable_of_iff (s = s') (by simp)

/-- Candidate validation of lines 328-336: each token is lowercased by
`lowercase_and_validate` and must be alphabetic and at least 3 characters
long; the loop breaks at the first bad token (`Option` short-circuit),
and the lowered strings are the candidates pushed into the vector. -/
def validate_token (s : String) : Option String :=
  let t := strLower s
  if allAlpha t ∧ 3 ≤ t.length then some t else none

/-- Validation of the whole token list (the `while (start != nullptr)`
loop): `none` as soon as one token fails. -/
def validate_tokens : List String → Option (List String)
  | [] => some []
  | s :: rest =>
    match validate_token s with
    | none => none
    | some t => (validate_tokens rest).map (fun l => t :: l)

/-- The inner stem loop of lines 356-368 for one candidate, iterating the
candidate's stems in the order the `std::set` yields them.  State:
`round` is `stems_this_round`, `scr` is `score_this_round`, `ws` is
`was_scored`; `clen` is the candidate's length.  A stem already in
`used_stems` or in `stems_this_round` sets `entry_invalid` and breaks;
otherwise the stem is claimed and, if the candidate was not yet scored,
`score_this_round += candidate.size() - 3` (the candidate's length is at
least 3 when this runs, so Nat subtraction is exact). -/
def scan_stems (used : Finset String) (clen : Nat) :
    List String → Finset String → Nat → Bool → Bool × Finset String × Nat
  | [], round, scr, _ => (false, round, scr)
  | s :: rest, round, scr, ws =>
    if s ∈ used ∨ s ∈ round then (true, round, scr)
    else scan_stems used clen rest (insert s round)
      (if ws then scr else scr + (clen - 3)) true

/-- The outer candidate loop of lines 346-369.  `stems` is the oracle
giving, for each word, the list of stems `stems_from_str` yields in set
iteration order (sorted, duplicate-free).  An empty stem set breaks the
outer loop ("isn't a valid word"); a stem collision breaks only the inner
loop, so the remaining candidates are still scanned, but the
`entry_invalid` flag (the returned Bool, OR-ed across candidates) stays
set and the turn cannot commit. -/
def scan_candidates (stems : String → List String) (used : Finset String) :
    List String → Finset String → Nat → Bool × Finset String × Nat
  | [], round, scr => (false, round, scr)
  | c :: rest, round, scr =>
    if stems c = [] then (true, round, scr)
    else
      let res := scan_stems used c.length (stems c) round scr false
      let res2 := scan_candidates stems used rest res.2.1 res.2.2
      (res.1 || res2.1, res2.2)

/-- One turn of `rat_trap_parts::play` (lines 308-377), after the input
line has been lowercased and split on spaces into the chosen word and the
remaining tokens.  Checks in program order: membership of `chosen` in
`current` (line 314), nonempty candidate list (line 323), per-candidate
alphabetic/length validation (lines 328-336), the anagram check
(line 339), and the stem scan (lines 344-369).  On success the commit of
lines 371-375 runs: add `score_this_round` to the score, merge
`stems_this_round` into `used_stems`, erase `chosen` from `current`,
insert it into `prior`, and insert every candidate into `current`. -/
def play_turn (stems : String → List String) (st : GameState)
    (chosen : String) (tokens : List String) : TurnResult :=
  if chosen ∉ st.current then .rejected .notCurrent
  else if tokens = [] then .rejected .noCandidates
  else
    match validate_tokens tokens with
    | none => .rejected .badToken
    | some candidates =>
      if (mkWord chosen).is_one_less_than candidates = false then
        .rejected .notAnagram
      else
        match scan_candidates stems st.used_stems candidates ∅ 0 with
        | (true, _, _) => .rejected .entryInvalid
        | (false, round, scr) =>
          .committed
            { score := st.score + scr
              used_stems := st.used_stems ∪ round
              current := (st.current.erase chosen) ∪ candidates.toFinset
              prior := insert chosen st.prior }

/-- The state after a turn: a rejected turn reaches `continue` without
touching any member, a committed one installs the updated state. -/
def next_state (stems : String → List String) (st : GameState)
    (chosen : String) (tokens : List String) : GameState :=
  match play_turn stems st chosen tokens with
  | .rejected _ => st
  | .committed st' => st'

/-- The quit path (lines 290-293): `for (auto const& c : current) score +=
c.literal.size() - 3;`, iterating `current` in its sorted order. -/
def quit_score (st : GameState) : Nat :=
  (st.current.sort (· ≤ ·)).foldl (fun s w => s + (w.length - 3)) st.score

/-- `⋃ c ∈ l, stems c` as a Finset: the stems claimable by a candidate
list. -/
def stemsUnion (stems : String → List String) : List String → Finset String
  | [] => ∅
  | c :: rest => (stems c).toFinset ∪ stemsUnion stems rest

/-- The total `len(candidate) - 3` score of a candidate list. -/
def deltaSum : List String → Nat
  | [] => 0
  | c :: rest => (c.length - 3) + deltaSum rest

/-- Reachable game states.  `setup` (lines 203-230) seeds `current` with
one 3-letter word (typed, validated to length 3, or read as a 3-byte
record from the word list) and pre-claims its stems into `used_stems`;
thereafter each input line either leaves the state alone (a rejected
turn) or commits (a successful one), which `next_state` captures. -/
inductive Reachable (stems : String → List String) : GameState → Prop where
  | init (seed : String) (h3 : seed.length = 3) :
      Reachable stems ⟨0, (stems seed).toFinset, {seed}, ∅⟩
  | step (st : GameState) (chosen : String) (tokens : List String) :
      Reachable stems st →
      Reachable stems (next_state stems st chosen tokens)

/-- A concrete stem oracle for the witness instances: "acts" has the
single stem "act", the seed "cat" has the stem "cat", everything else
has none. -/
def stemsEx : String → List String :=
  fun s => if s = "acts" then ["act"] else if s = "cat" then ["cat"] else []

/-- The seeded game state: score 0, `current = {"cat"}` and the seed's
stems pre-claimed, exactly as `setup` leaves it. -/
def st0 : GameState := ⟨0, (stemsEx "cat").toFinset, {"cat"}, ∅⟩

/-- The state after the committed turn `cat acts` from `st0`. -/
def st1 : GameState := ⟨1, {"act", "cat"}, {"acts"}, {"cat"}⟩

/-- A lexical oracle that recognizes every spelling but produces no
morphology at all. -/
def trivOracle : LexOracle :=
  ⟨fun _ => true, fun _ _ => none, fun _ _ => true, fun _ => []⟩

/-- A lexical oracle on which every category flags the secondary stemmer
(no WordNet base form, but the word is in WordNet as a base form) and
the secondary stemmer returns the two stems "alpha" and "beta". -/
def hunOracle : LexOracle :=
  ⟨fun _ => true, fun _ _ => none, fun _ _ => true, fun _ => ["alpha", "beta"]⟩

/-- A 128-character input, the shortest length the buffer check rejects. -/
def s128 : String := String.mk (List.replicate 128 'a')

theorem next_state_rejected (stems : String → List String) (st : GameState)
    (chosen : String) (tokens : List String) (r : RejectReason)
    (h : play_turn stems st chosen tokens = .rejected r) :
    next_state stems st chosen tokens = st := by
  unfold next_state
  rw [h]

theorem next_state_committed (stems : String → List String) (st : GameState)
    (chosen : String) (tokens : List String) (st' : GameState)
    (h : play_turn stems st chosen tokens = .committed st') :
    next_state stems st chosen tokens = st' := by
  unfold next_state
  rw [h]

theorem scan_stems_false (used : Finset String) (clen : Nat) :
    ∀ (l : List String) (round : Finset String) (scr : Nat) (ws : Bool)
      (r' : Finset String) (s' : Nat),
      scan_stems used clen l round scr ws = (false, r', s') →
      r' = round ∪ l.toFinset ∧
      (∀ x ∈ l, x ∉ used ∧ x ∉ round) ∧
      s' = scr + (if ws = true ∨ l = [] then 0 else clen - 3) := by
  intro l
  induction l with
  | nil =>
    intro round scr ws r' s' h
    simp only [scan_stems, Prod.mk.injEq, true_and] at h
    obtain ⟨hr, hs⟩ := h
    subst hr; subst hs
    simp
  | cons s rest ih =>
    intro round scr ws r' s' h
    simp only [scan_stems] at h
    by_cases hin : s ∈ used ∨ s ∈ round
    · rw [if_pos hin] at h
      exact absurd h (by simp)
    · rw [if_neg hin] at h
      push_neg at hin
      obtain ⟨hr, hcond, hs⟩ := ih _ _ _ _ _ h
      refine ⟨?_, ?_, ?_⟩
      · rw [hr]
        simp [Finset.union_insert, Finset.insert_union]
      · intro x hx
        rcases List.mem_cons.mp hx with hx | hx
        · exact hx ▸ hin
        · obtain ⟨h1, h2⟩ := hcond x hx
          exact ⟨h1, fun hc => h2 (Finset.mem_insert_of_mem hc)⟩
      · cases ws with
        | true => simpa using hs
        | false => simpa using hs

theorem stemsUnion_mem (stems : String → List String) :
    ∀ (l : List String) (c : String), c ∈ l →
      (stems c).toFinset ⊆ stemsUnion stems l := by
  intro l
  induction l with
  | nil => intro c hc; cases hc
  | cons a rest ih =>
    intro c hc
    simp only [stemsUnion]
    rcases List.mem_cons.mp hc with h | h
    · subst h; exact Finset.subset_union_left
    · exact (ih c h).trans Finset.subset_union_right

theorem scan_candidates_false (stems : String → List String)
    (used : Finset String) :
    ∀ (l : List String) (round : Finset String) (scr : Nat)
      (r' : Finset String) (s' : Nat),
      scan_candidates stems used l round scr = (false, r', s') →
      r' = round ∪ stemsUnion stems l ∧
      s' = scr + deltaSum l ∧
      (∀ c ∈ l, stems c ≠ [] ∧ ∀ x ∈ stems c, x ∉ used) := by
  intro l
  induction l with
  | nil =>
    intro round scr r' s' h
    simp only [scan_candidates, Prod.mk.injEq, true_and] at h
    obtain ⟨hr, hs⟩ := h
    subst hr; subst hs
    simp [stemsUnion, deltaSum]
  | cons c rest ih =>
    intro round scr r' s' h
    simp only [scan_candidates] at h
    by_cases hng : stems c = []
    · rw [if_pos hng] at h
      exact absurd h (by simp)
    · rw [if_neg hng] at h
      rcases hA : scan_stems used c.length (stems c) round scr false
        with ⟨inv, round1, scr1⟩
      rcases hB : scan_candidates stems used rest round1 scr1
        with ⟨inv2, round2, scr2⟩
      simp only [hA, hB, Prod.mk.injEq, Bool.or_eq_false_iff] at h
      obtain ⟨⟨hinv, hinv2⟩, hr, hs⟩ := h
      subst hinv; subst hinv2
      obtain ⟨hA1, hA2, hA3⟩ := scan_stems_false used c.length _ _ _ _ _ _ hA
      obtain ⟨hB1, hB2, hB3⟩ := ih _ _ _ _ hB
      subst hr; subst hs
      refine ⟨?_, ?_, ?_⟩
      · rw [hB1, hA1]
        simp only [stemsUnion]
        rw [Finset.union_assoc]
      · rw [hB2, hA3]
        simp only [deltaSum, if_neg (by simp [hng] : ¬ (false = true ∨ stems c = []))]
        omega
      · intro d hd
        rcases List.mem_cons.mp hd with hdc | hdc
        · subst hdc
          exact ⟨hng, fun x hx => (hA2 x hx).1⟩
        · exact hB3 d hdc

theorem play_turn_committed_inv (stems : String → List String)
    (st : GameState) (chosen : String) (tokens : List String)
    (st' : GameState)
    (h : play_turn stems st chosen tokens = .committed st') :
    chosen ∈ st.current ∧ tokens ≠ [] ∧
    ∃ candidates round scr,
      validate_tokens tokens = some candidates ∧
      (mkWord chosen).is_one_less_than candidates = true ∧
      scan_candidates stems st.used_stems candidates ∅ 0 =
        (false, round, scr) ∧
      st' = ⟨st.score + scr, st.used_stems ∪ round,
             (st.current.erase chosen) ∪ candidates.toFinset,
             insert chosen st.prior⟩ := by
  unfold play_turn at h
  split at h
  next => exact TurnResult.noConfusion h
  next h1 =>
    split at h
    next => exact TurnResult.noConfusion h
    next h2 =>
      split at h
      next => exact TurnResult.noConfusion h
      next candidates hv =>
        split at h
        next => exact TurnResult.noConfusion h
        next h3 =>
          split at h
          next => exact TurnResult.noConfusion h
          next round scr hs =>
            simp only [TurnResult.committed.injEq] at h
            exact ⟨not_not.mp h1, h2, candidates, round, scr, hv,
              by simpa using h3, hs, h.symm⟩

theorem foldl_add_sum (f : String → Nat) :
    ∀ (l : List String) (init : Nat),
      l.foldl (fun a w => a + f w) init = init + (l.map f).sum := by
  intro l
  induction l with
  | nil => intro init; simp
  | cons a rest ih =>
    intro init
    simp only [List.foldl_cons, List.map_cons, List.sum_cons, ih]
    omega

theorem quit_score_eq (st : GameState) :
    quit_score st = st.score + ∑ w ∈ st.current, (w.length - 3) := by
  unfold quit_score
  rw [foldl_add_sum]
  congr 1
  have h1 : ∑ w ∈ st.current, (w.length - 3)
      = Multiset.sum (Multiset.map (fun w => w.length - 3) st.current.val) := rfl
  rw [h1, ← Finset.sort_eq (· ≤ ·) st.current, Multiset.map_coe, Multiset.sum_coe]

theorem reachable_inv (stems : String → List String) (st : GameState)
    (h : Reachable stems st) :
    (∀ w, (w ∈ st.current ∨ w ∈ st.prior) →
      ∀ x ∈ stems w, x ∈ st.used_stems) ∧
    (∀ w ∈ st.prior, w ∉ st.current) := by
  induction h with
  | init seed h3 =>
    constructor
    · intro w hw x hx
      rcases hw with hw | hw
      · rw [Finset.mem_singleton] at hw
        subst hw
        exact List.mem_toFinset.mpr hx
      · exact absurd hw (Finset.not_mem_empty w)
    · intro w hw
      exact absurd hw (Finset.not_mem_empty w)
  | step st chosen tokens hr ih =>
    rcases hpt : play_turn stems st chosen tokens with r | st''
    · rw [next_state_rejected stems st chosen tokens r hpt]
      exact ih
    · rw [next_state_committed stems st chosen tokens st'' hpt]
      obtain ⟨hmem, -, candidates, round, scr, hv, -, hscan, hst⟩ :=
        play_turn_committed_inv stems st chosen tokens st'' hpt
      obtain ⟨hru, hsu, hfresh⟩ :=
        scan_candidates_false stems st.used_stems candidates ∅ 0 round scr hscan
      subst hst
      constructor
      · intro w hw x hx
        rcases hw with hw | hw
        · rcases Finset.mem_union.mp hw with hw | hw
          · have hwc : w ∈ st.current := (Finset.mem_erase.mp hw).2
            exact Finset.mem_union_left _ (ih.1 w (Or.inl hwc) x hx)
          · have hwc : w ∈ candidates := List.mem_toFinset.mp hw
            refine Finset.mem_union_right _ ?_
            rw [hru, Finset.empty_union]
            exact stemsUnion_mem stems candidates w hwc
              (List.mem_toFinset.mpr hx)
        · rcases Finset.mem_insert.mp hw with hw | hw
          · subst hw
            exact Finset.mem_union_left _ (ih.1 w (Or.inl hmem) x hx)
          · exact Finset.mem_union_left _ (ih.1 w (Or.inr hw) x hx)
      · intro w hw hwc
        rcases Finset.mem_insert.mp hw with hw | hw
        · subst hw
          rcases Finset.mem_union.mp hwc with hc | hc
          · exact (Finset.mem_erase.mp hc).1 rfl
          · have hcand : w ∈ candidates := List.mem_toFinset.mp hc
            obtain ⟨hne, hfr⟩ := hfresh w hcand
            obtain ⟨x, hx⟩ := List.exists_mem_of_ne_nil _ hne
            exact hfr x hx (ih.1 w (Or.inl hmem) x hx)
        · rcases Finset.mem_union.mp hwc with hc | hc
          · exact ih.2 w hw (Finset.mem_erase.mp hc).2
          · have hcand : w ∈ candidates := List.mem_toFinset.mp hc
            obtain ⟨hne, hfr⟩ := hfresh w hcand
            obtain ⟨x, hx⟩ := List.exists_mem_of_ne_nil _ hne
            exact hfr x hx (ih.1 w (Or.inr hw) x hx)

/-- C1: the claim states that `is_one_less_than` returns true iff the
candidates' combined letters are exactly the source's letter multiset
plus one extra letter — in particular false whenever some source letter
is absent from the combination.  The code violates this: for source
"cat" and candidates ["caca"] it returns true although the source letter
't' does not occur in the combined string at all.  The walk checks
`j - i > 1` only before advancing `j`, so the combined cursor can run
two characters ahead, and the loop exits true as soon as the combined
cursor is exhausted even though the last source letter was never
matched. -/
theorem anagram_validator_accepts_missing_letter :
    (mkWord "cat").is_one_less_than ["caca"] = true ∧
    't' ∈ "cat".data ∧ 't' ∉ (String.join ["caca"]).data := by
  refine ⟨by decide, by decide, by decide⟩

/-- C3 (counterexample): the spec's fourth Anagram Validator test vector
claims `is_one_letter_more("cat", ["ct", "as"])` is false; the code
returns true.  The candidates join to "ctas", whose length 4 is exactly
one more than "cat"'s 3, and whose sorted letters "acst" pass the walk
(same letters as "cats"). -/
theorem fourth_vector_is_true :
    (mkWord "cat").is_one_less_than ["ct", "as"] = true := by decide

/-- C3 (amended): the validator yields false, true, false on the first
three vectors exactly as claimed, and true (not false) on the fourth:
the per-candidate "length at least 3" rule that would reject "ct" and
"as" lives in the turn handler of `play`, not in the validator, which
only concatenates the candidates. -/
theorem anagram_validator_vectors :
    (mkWord "cat").is_one_less_than ["act"] = false ∧
    (mkWord "cat").is_one_less_than ["cats"] = true ∧
    (mkWord "cat").is_one_less_than ["tabs"] = false ∧
    (mkWord "cat").is_one_less_than ["ct", "as"] = true := by
  refine ⟨by decide, by decide, by decide, by decide⟩

/-- C2: every rejected turn — whatever the rejection reason — leaves the
game state completely unchanged: score, used-stem ledger and both word
pools keep their prior values; no partial application of the turn is
visible.  (All mutation in `play` happens after the last `continue`.) -/
theorem rejected_turn_no_mutation (stems : String → List String)
    (st : GameState) (chosen : String) (tokens : List String)
    (r : RejectReason)
    (h : play_turn stems st chosen tokens = .rejected r) :
    (next_state stems st chosen tokens).score = st.score ∧
    (next_state stems st chosen tokens).used_stems = st.used_stems ∧
    (next_state stems st chosen tokens).current = st.current ∧
    (next_state stems st chosen tokens).prior = st.prior := by
  rw [next_state_rejected stems st chosen tokens r h]
  exact ⟨rfl, rfl, rfl, rfl⟩

/-- Witness for the C2 theorem at a concrete rejected turn ("dog" is not
a current word). -/
theorem rejected_turn_no_mutation_witness :
    play_turn stemsEx st0 "dog" ["cats"] = .rejected .notCurrent ∧
    (next_state stemsEx st0 "dog" ["cats"]).score = st0.score ∧
    (next_state stemsEx st0 "dog" ["cats"]).used_stems = st0.used_stems ∧
    (next_state stemsEx st0 "dog" ["cats"]).current = st0.current ∧
    (next_state stemsEx st0 "dog" ["cats"]).prior = st0.prior := by
  have h : play_turn stemsEx st0 "dog" ["cats"] = .rejected .notCurrent := by
    decide
  exact ⟨h, rejected_turn_no_mutation stemsEx st0 "dog" ["cats"] .notCurrent h⟩

/-- C4: when every candidate passes validation the commit performs
exactly this state change: the score grows by the sum over candidates of
(length - 3) — each candidate credited once, which is what `deltaSum`
counts (further stems of a scored candidate are recorded in
`stems_this_round` but not scored again) — all claimed-this-turn stems
(the union of every candidate's stems) are merged into the used-stem
ledger, the chosen word moves from `current` to `prior`, and every
candidate enters `current`. -/
theorem committed_turn_effect (stems : String → List String)
    (st : GameState) (chosen : String) (tokens : List String)
    (candidates : List String) (st' : GameState)
    (hv : validate_tokens tokens = some candidates)
    (h : play_turn stems st chosen tokens = .committed st') :
    st'.score = st.score + deltaSum candidates ∧
    st'.used_stems = st.used_stems ∪ stemsUnion stems candidates ∧
    st'.current = (st.current.erase chosen) ∪ candidates.toFinset ∧
    st'.prior = insert chosen st.prior := by
  obtain ⟨-, -, cands2, round, scr, hv2, -, hscan, hst⟩ :=
    play_turn_committed_inv stems st chosen tokens st' h
  rw [hv] at hv2
  injection hv2 with hc
  subst hc
  obtain ⟨hru, hsu, -⟩ :=
    scan_candidates_false stems st.used_stems _ _ _ _ _ hscan
  subst hst
  refine ⟨?_, ?_, rfl, rfl⟩
  · simp [hsu]
  · rw [hru, Finset.empty_union]

/-- Witness for the C4 theorem: the spec's own scenario `cat acts`
(with `stemsEx` giving "acts" the single stem "act"). -/
theorem committed_turn_effect_witness :
    validate_tokens ["acts"] = some ["acts"] ∧
    play_turn stemsEx st0 "cat" ["acts"] = .committed st1 ∧
    st1.score = st0.score + deltaSum ["acts"] ∧
    st1.used_stems = st0.used_stems ∪ stemsUnion stemsEx ["acts"] ∧
    st1.current = (st0.current.erase "cat") ∪
      (["acts"] : List String).toFinset ∧
    st1.prior = insert "cat" st0.prior := by
  have hv : validate_tokens ["acts"] = some ["acts"] := by decide
  have h : play_turn stemsEx st0 "cat" ["acts"] = .committed st1 := by decide
  exact ⟨hv, h,
    committed_turn_effect stemsEx st0 "cat" ["acts"] ["acts"] st1 hv h⟩

/-- C5: the claim (and spec) say that when the secondary rule-based
stemmer is flagged during the category loop it is invoked once on the
normalized word and *every* stem it returns is added to the result set.
The code contradicts it: the loop over the returned array increments its
counter twice per iteration (`i++` in both the header and the body of
lines 132-135), so only the stems at even indices are added.  With an
oracle whose stemmer returns ["alpha", "beta"], the result contains only
"alpha"; "beta" is silently dropped. -/
theorem hunspell_stems_skipped :
    stems_from_str hunOracle "run" = .ok {"alpha"} ∧
    "beta" ∈ hunOracle.hun_stem (strLower "run") ∧
    "beta" ∉ ({"alpha"} : Finset String) := by
  refine ⟨by decide, by decide, by decide⟩

set_option maxRecDepth 4000 in
/-- C6 (counterexample): an input of exactly 128 characters has length
at most 128, so the claim predicts no length-exceeded error; the code
raises one, because `str.size() >= sizeof(literal_arr)` fires already at
128 (a 128-character string does not fit the 128-byte buffer together
with its terminator). -/
theorem length_error_at_128 :
    s128.length ≤ 128 ∧
    stems_from_str trivOracle s128 = .error .lengthExceeded := by
  refine ⟨by decide, by decide⟩

/-- C6 (amended): `stems_from_str` raises the length-exceeded error
exactly for inputs of length at least 128 — i.e. longer than the 127
characters the 128-byte buffer can hold — and it does so for every
oracle, so no dictionary query can influence the outcome (the length
check precedes the dictionary lookup); for every input of length at most
127 no error is raised. -/
theorem length_error_iff (L : LexOracle) (s : String) :
    (∃ e, stems_from_str L s = .error e) ↔ 128 ≤ s.length := by
  by_cases h : 128 ≤ s.length
  · constructor
    · intro _
      exact h
    · intro _
      refine ⟨.lengthExceeded, ?_⟩
      unfold stems_from_str
      rw [if_pos h]
  · constructor
    · rintro ⟨e, he⟩
      unfold stems_from_str at he
      rw [if_neg h] at he
      dsimp only at he
      split_ifs at he
    · intro hc
      exact absurd hc h

/-- C7: at quit time (the `q` branch of `play`) every word still in
`current` contributes its length minus 3 to the score — each live word
credited exactly once, by the sum over the set `current`, and with no
reference to any stem information; in the concrete case
`current = {"acts"}` the bonus is exactly 1. -/
theorem quit_bonus (st : GameState) :
    quit_score st = st.score + ∑ w ∈ st.current, (w.length - 3) ∧
    ∀ (s : Nat) (u p : Finset String),
      quit_score ⟨s, u, {"acts"}, p⟩ = s + 1 := by
  refine ⟨quit_score_eq st, ?_⟩
  intro s u p
  rw [quit_score_eq]
  have h4 : ("acts" : String).length = 4 := rfl
  simp [Finset.sum_singleton, h4]

/-- C8: along every reachable trace, `prior` only ever grows; a word in
`prior` never re-enters `current` — even when a later turn resubmits the
same string as a candidate, the turn is rejected because the word's
stems were already claimed when it first entered the pools; and a word
leaves `current` only by being the chosen source of a committed turn, in
which case it moves into `prior` (so any word moves from `current` to
`prior` at most once and is never removed from `prior`). -/
theorem word_retirement (stems : String → List String) (st : GameState)
    (chosen : String) (tokens : List String)
    (h : Reachable stems st) :
    st.prior ⊆ (next_state stems st chosen tokens).prior ∧
    (∀ w ∈ st.prior, w ∉ (next_state stems st chosen tokens).current) ∧
    (∀ w ∈ st.current, w ∉ (next_state stems st chosen tokens).current →
      w = chosen ∧ w ∈ (next_state stems st chosen tokens).prior ∧
      ∃ st', play_turn stems st chosen tokens = .committed st') := by
  obtain ⟨hinv1, hinv2⟩ := reachable_inv stems st h
  rcases hpt : play_turn stems st chosen tokens with r | st''
  · rw [next_state_rejected stems st chosen tokens r hpt]
    refine ⟨Finset.Subset.refl _, hinv2, ?_⟩
    intro w hw hnw
    exact absurd hw hnw
  · rw [next_state_committed stems st chosen tokens st'' hpt]
    obtain ⟨hmem, -, candidates, round, scr, hv, -, hscan, hst⟩ :=
      play_turn_committed_inv stems st chosen tokens st'' hpt
    obtain ⟨-, -, hfresh⟩ :=
      scan_candidates_false stems st.used_stems candidates ∅ 0 round scr hscan
    subst hst
    refine ⟨?_, ?_, ?_⟩
    · intro w hw
      exact Finset.mem_insert_of_mem hw
    · intro w hw hwc
      rcases Finset.mem_union.mp hwc with hc | hc
      · exact hinv2 w hw (Finset.mem_erase.mp hc).2
      · have hcand : w ∈ candidates := List.mem_toFinset.mp hc
        obtain ⟨hne, hfr⟩ := hfresh w hcand
        obtain ⟨x, hx⟩ := List.exists_mem_of_ne_nil _ hne
        exact hfr x hx (hinv1 w (Or.inr hw) x hx)
    · intro w hw hnw
      have hwch : w = chosen := by
        by_contra hne
        exact hnw (Finset.mem_union_left _ (Finset.mem_erase.mpr ⟨hne, hw⟩))
      subst hwch
      exact ⟨rfl, Finset.mem_insert_self _ _, _, rfl⟩

/-- Witness for the C8 theorem: in the seeded game, the committed turn
`cat acts` moves "cat" into `prior`. -/
theorem word_retirement_witness :
    "cat" ∈ (next_state stemsEx st0 "cat" ["acts"]).prior :=
  ((word_retirement stemsEx st0 "cat" ["acts"]
      (Reachable.init "cat" (by decide))).2.2 "cat" (by decide)
      (by decide)).2.1

/-- C9: the score is a natural number (never negative) and never
decreases: a turn — committed or rejected — and the quit bonus each
leave it at least as large; at a commit the increase is exactly the sum
of the per-candidate length deltas `len - 3` (each a Nat, hence
non-negative), and at quit it is the sum of the per-live-word deltas. -/
theorem score_monotone (stems : String → List String) (st : GameState)
    (chosen : String) (tokens : List String) :
    st.score ≤ (next_state stems st chosen tokens).score ∧
    st.score ≤ quit_score st ∧
    (∀ (st' : GameState) (candidates : List String),
      validate_tokens tokens = some candidates →
      play_turn stems st chosen tokens = .committed st' →
      st'.score = st.score + deltaSum candidates) ∧
    quit_score st = st.score + ∑ w ∈ st.current, (w.length - 3) := by
  refine ⟨?_, ?_, ?_, quit_score_eq st⟩
  · rcases hpt : play_turn stems st chosen tokens with r | st''
    · rw [next_state_rejected stems st chosen tokens r hpt]
    · rw [next_state_committed stems st chosen tokens st'' hpt]
      obtain ⟨-, -, candidates, round, scr, -, -, -, hst⟩ :=
        play_turn_committed_inv stems st chosen tokens st'' hpt
      subst hst
      exact Nat.le_add_right _ _
  · rw [quit_score_eq]
    exact Nat.le_add_right _ _
  · intro st' candidates hv hc
    obtain ⟨-, -, cands2, round, scr, hv2, -, hscan, hst⟩ :=
      play_turn_committed_inv stems st chosen tokens st' hc
    rw [hv] at hv2
    injection hv2 with hceq
    subst hceq
    obtain ⟨-, hsu, -⟩ :=
      scan_candidates_false stems st.used_stems _ _ _ _ _ hscan
    subst hst
    simp [hsu]

/-- Witness for the C9 theorem: the seeded game, with the committed turn
`cat acts` raising the score by `deltaSum ["acts"] = 1`. -/
theorem score_monotone_witness :
    st0.score ≤ (next_state stemsEx st0 "cat" ["acts"]).score ∧
    st1.score = st0.score + deltaSum ["acts"] :=
  ⟨(score_monotone stemsEx st0 "cat" ["acts"]).1,
   (score_monotone stemsEx st0 "cat" ["acts"]).2.2.1 st1 ["acts"]
     (by decide) (by decide)⟩

/-- C10: an invariant established by initialization (`setup` pre-claims
the seed word's stems) and preserved by every committed turn (the commit
merges every candidate stem into the ledger): every stem of every word
in `current` or `prior` is already in `used_stems`.  Consequently a turn
that submits a pool word as one of its candidates — provided the word
has at least one stem — can never commit: its first stem is found in the
ledger and the turn is rejected. -/
theorem pool_stems_claimed (stems : String → List String) (st : GameState)
    (h : Reachable stems st) :
    (∀ w, (w ∈ st.current ∨ w ∈ st.prior) →
      ∀ x ∈ stems w, x ∈ st.used_stems) ∧
    (∀ (chosen : String) (tokens candidates : List String) (w : String)
      (st' : GameState),
      validate_tokens tokens = some candidates →
      w ∈ candidates → (w ∈ st.current ∨ w ∈ st.prior) → stems w ≠ [] →
      play_turn stems st chosen tokens ≠ .committed st') := by
  obtain ⟨hinv1, -⟩ := reachable_inv stems st h
  refine ⟨hinv1, ?_⟩
  intro chosen tokens candidates w st' hv hwc hwp hne hcommit
  obtain ⟨-, -, cands2, round, scr, hv2, -, hscan, -⟩ :=
    play_turn_committed_inv stems st chosen tokens st' hcommit
  rw [hv] at hv2
  injection hv2 with hceq
  subst hceq
  obtain ⟨-, -, hfresh⟩ :=
    scan_candidates_false stems st.used_stems _ _ _ _ _ hscan
  obtain ⟨-, hfr⟩ := hfresh w hwc
  obtain ⟨x, hx⟩ := List.exists_mem_of_ne_nil _ hne
  exact hfr x hx (hinv1 w hwp x hx)

/-- Witness for the C10 theorem: resubmitting the seed word "cat" (which
is in `current` and has the stem "cat", pre-claimed at setup) as a
candidate cannot commit. -/
theorem pool_stems_claimed_witness :
    play_turn stemsEx st0 "cat" ["cat"] ≠ .committed st1 :=
  (pool_stems_claimed stemsEx st0 (Reachable.init "cat" (by decide))).2
    "cat" ["cat"] ["cat"] "cat" st1 (by decide) (by decide)
    (Or.inl (by decide)) (by decide)
